import Mathlib

/-
Verification of the web-scraping core of `mcp-example`: the per-domain
sliding-window `RateLimiter` and the domain-grouped batch-fetch driver
(`src/web-scraping-mcp/web_utils.py`, `src/web-scraping-mcp/web_scraper.py`),
plus the content-type dispatch of `WebScraper.fetch_url`.

Timestamps produced by `time.time()` are real-valued; the embedding is
parametric over a linearly ordered additive commutative group `T` of clock
readings (instantiate `T := Int` for concrete evaluation, `T := Rat` or
`T := Real` for the idealised clock).  Python `int` becomes `Int`, Python
lists become `List`, the `requests` dict becomes a total function
`String → List T` (an absent key and an empty list are observationally
identical in the source: `can_make_request` inserts `[]` for a missing key
before using it, and `get_wait_time` treats a missing key and an empty list
the same way).
-/

namespace McpExample

/-! ## RateLimiter (web_utils.py, lines 158-193) -/

/-- State of `RateLimiter`: `max_requests` and `time_window` are fixed at
construction; `requests` maps a domain to its recorded timestamps. -/
structure RateLimiter (T : Type) where
  max_requests : Int
  time_window : T
  requests : String → List T

variable {T : Type} [LinearOrderedAddCommGroup T]

/-- Constructor `RateLimiter.__init__`: empty request history. -/
def RateLimiter.init (max_requests : Int) (time_window : T) : RateLimiter T :=
  ⟨max_requests, time_window, fun _ => []⟩

/-- The prune of `can_make_request`: keep timestamps with
`current_time - req_time < time_window` (web_utils.py lines 174-177). -/
def pruneRequests (current_time time_window : T) (l : List T) : List T :=
  l.filter (fun req_time => decide (current_time - req_time < time_window))

/-- The body of `RateLimiter.can_make_request(domain)` at clock reading
`current_time` (web_utils.py lines 166-184): prune the domain's timestamps to
the window, then admit (recording `current_time`) iff the pruned count is
below `max_requests`.  Returns the boolean result and the new state. -/
def can_make_request (rl : RateLimiter T) (domain : String) (current_time : T) :
    Bool × RateLimiter T :=
  let pruned := pruneRequests current_time rl.time_window (rl.requests domain)
  if (pruned.length : Int) < rl.max_requests then
    (true, ⟨rl.max_requests, rl.time_window,
      fun d => if d = domain then pruned ++ [current_time] else rl.requests d⟩)
  else
    (false, ⟨rl.max_requests, rl.time_window,
      fun d => if d = domain then pruned else rl.requests d⟩)

/-- The body of `RateLimiter.get_wait_time(domain)` at clock reading `now`
(web_utils.py lines 186-193): `0` for a missing/empty history, otherwise
`max 0 (time_window - (now - min(requests[domain])))`.  The source method
reads the state without mutating it, so the embedding is a pure function. -/
def get_wait_time (rl : RateLimiter T) (domain : String) (now : T) : T :=
  match rl.requests domain with
  | [] => 0
  | t :: ts =>
    let oldest_request := ts.foldl min t
    max 0 (rl.time_window - (now - oldest_request))

/-- Run a sequence of `can_make_request` calls, each given as a pair
`(domain, clock reading)`, collecting the returned booleans. -/
def runCalls (rl : RateLimiter T) : List (String × T) → List Bool
  | [] => []
  | (d, t) :: rest =>
    let r := can_make_request rl d t
    r.1 :: runCalls r.2 rest

/-- A call to the limiter: either `can_make_request` or `get_wait_time`,
with the domain argument and the clock reading at the call. -/
inductive LimiterCall (T : Type) where
  | cmr (domain : String) (t : T)
  | gwt (domain : String) (t : T)

/-- State transition of one limiter call: `can_make_request` updates the
state, `get_wait_time` only reads it (web_utils.py lines 186-193 never
write). -/
def applyCall (rl : RateLimiter T) : LimiterCall T → RateLimiter T
  | .cmr d t => (can_make_request rl d t).2
  | .gwt _ _ => rl

/-- State after a sequence of limiter calls. -/
def runLimiter (rl : RateLimiter T) : List (LimiterCall T) → RateLimiter T
  | [] => rl
  | c :: rest => runLimiter (applyCall rl c) rest

/-- Clock reading at the last prune of a domain: the time of the last
`can_make_request` call on it (every such call prunes; `get_wait_time` does
not prune). -/
def lastPruneTime (d : String) : List (LimiterCall T) → Option T
  | [] => none
  | .cmr d' t :: rest => if d' = d then (lastPruneTime d rest).getD t else lastPruneTime d rest
  | .gwt _ _ :: rest => lastPruneTime d rest

/-- All timestamps of `l` are within `w` of the prune clock `o`, when a prune
happened. -/
def withinWindow (w : T) (o : Option T) (l : List T) : Prop :=
  match o with
  | none => True
  | some pt => ∀ x ∈ l, pt - x < w

/-! ## Basic lemmas about `can_make_request` -/

theorem can_make_request_fst (rl : RateLimiter T) (d : String) (t : T) :
    (can_make_request rl d t).1 =
      decide (((pruneRequests t rl.time_window (rl.requests d)).length : Int) <
        rl.max_requests) := by
  unfold can_make_request
  by_cases h : ((pruneRequests t rl.time_window (rl.requests d)).length : Int) <
      rl.max_requests <;> simp [h]

theorem can_make_request_requests_self (rl : RateLimiter T) (d : String) (t : T) :
    (can_make_request rl d t).2.requests d =
      (if (can_make_request rl d t).1 then
        pruneRequests t rl.time_window (rl.requests d) ++ [t]
      else
        pruneRequests t rl.time_window (rl.requests d)) := by
  unfold can_make_request
  by_cases h : ((pruneRequests t rl.time_window (rl.requests d)).length : Int) <
      rl.max_requests <;> simp [h]

theorem can_make_request_requests_other (rl : RateLimiter T) (d d' : String) (t : T)
    (hne : d' ≠ d) : (can_make_request rl d t).2.requests d' = rl.requests d' := by
  unfold can_make_request
  by_cases h : ((pruneRequests t rl.time_window (rl.requests d)).length : Int) <
      rl.max_requests <;> simp [hne, h]

theorem can_make_request_max (rl : RateLimiter T) (d : String) (t : T) :
    (can_make_request rl d t).2.max_requests = rl.max_requests := by
  unfold can_make_request
  by_cases h : ((pruneRequests t rl.time_window (rl.requests d)).length : Int) <
      rl.max_requests <;> simp [h]

theorem can_make_request_window (rl : RateLimiter T) (d : String) (t : T) :
    (can_make_request rl d t).2.time_window = rl.time_window := by
  unfold can_make_request
  by_cases h : ((pruneRequests t rl.time_window (rl.requests d)).length : Int) <
      rl.max_requests <;> simp [h]

/-! ## C2: a denied call only prunes -/

/-- C2: when `can_make_request(domain)` denies admission, the only change to
`requests[domain]` is the prune of timestamps at or past the window edge: no
timestamp is appended and the in-window timestamps are kept unchanged (and in
order). -/
theorem denied_call_only_prunes (rl : RateLimiter T) (d : String) (t : T)
    (h : (can_make_request rl d t).1 = false) :
    (can_make_request rl d t).2.requests d =
      (rl.requests d).filter (fun x => decide (t - x < rl.time_window)) := by
  have h2 := can_make_request_requests_self rl d t
  rw [h] at h2
  simpa [pruneRequests] using h2

/-- Witness for C2: a zero-capacity limiter denies the call and the stored
list stays the pruned (here: empty) list. -/
theorem denied_call_only_prunes_witness :
    (can_make_request (RateLimiter.init 0 60 : RateLimiter Int) "example.com" 5).2.requests
        "example.com" =
      ((RateLimiter.init 0 60 : RateLimiter Int).requests "example.com").filter
        (fun x => decide (5 - x < (RateLimiter.init 0 60 : RateLimiter Int).time_window)) :=
  denied_call_only_prunes (RateLimiter.init 0 60) "example.com" 5 (by decide)

/-! ## C8: nonpositive capacity denies everything -/

/-- C8: with `max_requests ≤ 0` every `can_make_request` call on every domain
at every clock reading returns false (the pruned count is a nonnegative
integer, so it is never below a nonpositive bound).  This holds for every
state with a nonpositive capacity, in particular every state reachable from a
limiter constructed with one. -/
theorem nonpositive_capacity_denies (rl : RateLimiter T) (d : String) (t : T)
    (h : rl.max_requests ≤ 0) : (can_make_request rl d t).1 = false := by
  rw [can_make_request_fst]
  simp only [decide_eq_false_iff_not, not_lt]
  exact le_trans h (Int.ofNat_nonneg _)

/-- Witness for C8: a limiter built with `max_requests = 0` denies an
immediate first request. -/
theorem nonpositive_capacity_denies_witness :
    (RateLimiter.init 0 60 : RateLimiter Int).max_requests ≤ 0 ∧
      (can_make_request (RateLimiter.init 0 60 : RateLimiter Int) "example.com" 0).1 = false :=
  ⟨by decide, nonpositive_capacity_denies (RateLimiter.init 0 60) "example.com" 0 (by decide)⟩

/-! ## C5: the wait-time formula -/

/-- C5: `get_wait_time(domain)` returns `0` when no history exists for the
domain, and otherwise `time_window - (now - oldest recorded timestamp)`
floored at zero; being a pure function of the state, it mutates nothing. -/
theorem get_wait_time_formula (rl : RateLimiter T) (d : String) (now : T) :
    get_wait_time rl d now =
      match (rl.requests d).min? with
      | none => 0
      | some oldest => max 0 (rl.time_window - (now - oldest)) := by
  unfold get_wait_time
  cases h : rl.requests d with
  | nil => simp [List.min?]
  | cons t ts => simp [List.min?]

/-! ## C7: wait time is non-increasing in the clock -/

/-- C7: with the recorded state fixed (no new requests recorded between the
two reads), `get_wait_time` at a later clock reading `t2 ≥ t1` is at most
`get_wait_time` at `t1`. -/
theorem get_wait_time_antitone (rl : RateLimiter T) (d : String) (t1 t2 : T)
    (h : t1 ≤ t2) : get_wait_time rl d t2 ≤ get_wait_time rl d t1 := by
  unfold get_wait_time
  cases rl.requests d with
  | nil => exact le_refl 0
  | cons t ts =>
    exact max_le_max (le_refl 0) (sub_le_sub_left (sub_le_sub_right h _) _)

/-- Witness for C7: at clock readings 10 and 30 past a request recorded at
time 0 in a 60-second window, the wait time does not increase. -/
theorem get_wait_time_antitone_witness :
    (10 : Int) ≤ 30 ∧
      get_wait_time (⟨5, 60, fun _ => [0]⟩ : RateLimiter Int) "example.com" 30 ≤
        get_wait_time (⟨5, 60, fun _ => [0]⟩ : RateLimiter Int) "example.com" 10 :=
  ⟨by decide, get_wait_time_antitone ⟨5, 60, fun _ => [0]⟩ "example.com" 10 30 (by decide)⟩

/-! ## C1: the first `n` calls inside one window are admitted, then denial -/

/-- Pure admission counter: starting from `k` recorded requests with capacity
`n`, each of `m` calls is admitted iff the current count is below `n`, and an
admitted call increments the count.  `can_make_request` reduces to this
process whenever pruning removes nothing. -/
def countRun (n : Int) (k : Nat) : Nat → List Bool
  | 0 => []
  | m + 1 =>
    if (k : Int) < n then true :: countRun n (k + 1) m else false :: countRun n k m

theorem countRun_eq (m : Nat) : ∀ (k r : Nat),
    countRun ((k : Int) + (r : Int)) k m =
      List.replicate (min r m) true ++ List.replicate (m - r) false := by
  induction m with
  | zero => intro k r; simp [countRun]
  | succ m ih =>
    intro k r
    cases r with
    | zero =>
      have hk : ¬ ((k : Int) < (k : Int) + ((0 : Nat) : Int)) := by simp
      simp only [countRun, hk, if_false]
      have h0 := ih k 0
      simp only [Nat.cast_zero, add_zero] at h0 ⊢
      rw [h0]
      simp [List.replicate_succ]
    | succ r =>
      have hk : ((k : Int) < (k : Int) + ((r + 1 : Nat) : Int)) := by
        push_cast
        omega
      simp only [countRun, hk, if_true]
      have hcast : (k : Int) + ((r + 1 : Nat) : Int) = ((k + 1 : Nat) : Int) + (r : Int) := by
        push_cast
        ring
      rw [hcast, ih (k + 1) r]
      rw [Nat.succ_min_succ, Nat.succ_sub_succ]
      simp [List.replicate_succ]

/-- When every recorded timestamp and every call time lies at or after `a`
and every call time is within `w` of `a`, no prune ever removes anything and
the run of `can_make_request` calls on one domain is the pure admission
counter. -/
theorem runCalls_no_prune (n : Int) (w : T) (d : String) (a : T) :
    ∀ (ts cur : List T) (rl : RateLimiter T),
      rl.max_requests = n → rl.time_window = w → rl.requests d = cur →
      (∀ x ∈ cur, a ≤ x) → (∀ t ∈ ts, a ≤ t) → (∀ t ∈ ts, t - a < w) →
      runCalls rl (ts.map (fun t => (d, t))) = countRun n cur.length ts.length := by
  intro ts
  induction ts with
  | nil =>
    intro cur rl _ _ _ _ _ _
    simp [runCalls, countRun]
  | cons t ts ih =>
    intro cur rl hmax hwin hreq hcur hts1 hts2
    have hfilter : pruneRequests t rl.time_window (rl.requests d) = cur := by
      rw [hreq, hwin, pruneRequests, List.filter_eq_self]
      intro x hx
      simp only [decide_eq_true_eq]
      calc t - x ≤ t - a := sub_le_sub_left (hcur x hx) t
        _ < w := hts2 t (List.mem_cons_self t ts)
    have hb : (can_make_request rl d t).1 = decide ((cur.length : Int) < n) := by
      rw [can_make_request_fst, hfilter, hmax]
    have hs : (can_make_request rl d t).2.requests d =
        (if ((cur.length : Int) < n) then cur ++ [t] else cur) := by
      rw [can_make_request_requests_self, hb, hfilter]
      by_cases hc : ((cur.length : Int) < n) <;> simp [hc]
    have hmax2 := can_make_request_max rl d t
    have hwin2 := can_make_request_window rl d t
    simp only [List.map_cons, runCalls, List.length_cons]
    by_cases hc : ((cur.length : Int) < n)
    · rw [if_pos hc] at hs
      have htail := ih (cur ++ [t]) (can_make_request rl d t).2
        (hmax2.trans hmax) (hwin2.trans hwin) hs
        (by
          intro x hx
          rcases List.mem_append.mp hx with hx | hx
          · exact hcur x hx
          · rw [List.mem_singleton.mp hx]
            exact hts1 t (List.mem_cons_self t ts))
        (fun t' ht' => hts1 t' (List.mem_cons_of_mem t ht'))
        (fun t' ht' => hts2 t' (List.mem_cons_of_mem t ht'))
      rw [hb, htail]
      simp only [List.length_append, List.length_singleton]
      simp [countRun, hc]
    · rw [if_neg hc] at hs
      have htail := ih cur (can_make_request rl d t).2
        (hmax2.trans hmax) (hwin2.trans hwin) hs hcur
        (fun t' ht' => hts1 t' (List.mem_cons_of_mem t ht'))
        (fun t' ht' => hts2 t' (List.mem_cons_of_mem t ht'))
      rw [hb, htail]
      simp [countRun, hc]

/-- C1: on a freshly constructed limiter with `max_requests = n` (`n ≥ 1`)
and `time_window = w`, a sequence of `n + 1` `can_make_request` calls on one
domain, all at clock readings not before the first call and within `w` of it,
returns true for the first `n` calls (in particular the `n`-th) and false for
the `(n + 1)`-th. -/
theorem window_admission (n : Nat) (w : T) (d : String) (t0 : T) (rest : List T)
    (hn : 1 ≤ n) (hlen : rest.length = n) (hw : 0 < w)
    (hlo : ∀ t ∈ rest, t0 ≤ t) (hhi : ∀ t ∈ rest, t - t0 < w) :
    runCalls (RateLimiter.init (n : Int) w) ((t0 :: rest).map (fun t => (d, t))) =
      List.replicate n true ++ [false] := by
  have h := runCalls_no_prune (n : Int) w d t0 (t0 :: rest) []
    (RateLimiter.init (n : Int) w) rfl rfl rfl (by simp)
    (by
      intro t ht
      rcases List.mem_cons.mp ht with rfl | ht
      · exact le_refl t
      · exact hlo t ht)
    (by
      intro t ht
      rcases List.mem_cons.mp ht with rfl | ht
      · simpa using hw
      · exact hhi t ht)
  rw [h]
  simp only [List.length_nil]
  have h2 := countRun_eq (t0 :: rest).length 0 n
  simp only [Nat.cast_zero, zero_add] at h2
  rw [h2, List.length_cons, hlen]
  rw [min_eq_left (Nat.le_succ n), Nat.succ_sub (le_refl n), Nat.sub_self]
  simp

/-- Witness for C1, the concrete scenario of the spec: `max_requests = 2`,
`time_window = 60`, three immediate calls on `example.com` return
`[true, true, false]`. -/
theorem window_admission_witness :
    runCalls (RateLimiter.init ((2 : Nat) : Int) 60 : RateLimiter Int)
        (((0 : Int) :: [0, 0]).map (fun t => ("example.com", t))) =
      List.replicate 2 true ++ [false] :=
  window_admission 2 60 "example.com" 0 [0, 0] (by decide) (by decide) (by decide)
    (by decide) (by decide)

/-! ## C6: invariants of reachable limiter states -/

theorem runLimiter_snoc (rl : RateLimiter T) (es : List (LimiterCall T)) (e : LimiterCall T) :
    runLimiter rl (es ++ [e]) = applyCall (runLimiter rl es) e := by
  induction es generalizing rl with
  | nil => rfl
  | cons c cs ih => simp [runLimiter, ih]

theorem runLimiter_max (rl : RateLimiter T) (es : List (LimiterCall T)) :
    (runLimiter rl es).max_requests = rl.max_requests := by
  induction es generalizing rl with
  | nil => rfl
  | cons c cs ih =>
    rw [runLimiter, ih]
    cases c with
    | cmr d t => exact can_make_request_max rl d t
    | gwt d t => rfl

theorem runLimiter_time_window (rl : RateLimiter T) (es : List (LimiterCall T)) :
    (runLimiter rl es).time_window = rl.time_window := by
  induction es generalizing rl with
  | nil => rfl
  | cons c cs ih =>
    rw [runLimiter, ih]
    cases c with
    | cmr d t => exact can_make_request_window rl d t
    | gwt d t => rfl

theorem lastPruneTime_append (d : String) (es es2 : List (LimiterCall T)) :
    lastPruneTime d (es ++ es2) =
      match lastPruneTime d es2 with
      | some t => some t
      | none => lastPruneTime d es := by
  induction es with
  | nil => cases h : lastPruneTime d es2 <;> simp [lastPruneTime, h]
  | cons c cs ih =>
    cases c with
    | cmr d' t' =>
      by_cases h : d' = d <;> cases h2 : lastPruneTime d es2 <;>
        simp only [h2] at ih <;> simp [lastPruneTime, h, h2, ih]
    | gwt d' t' => cases h2 : lastPruneTime d es2 <;>
        simp only [h2] at ih <;> simp [lastPruneTime, h2, ih]

theorem runLimiter_withinWindow (w : T) (hw : 0 < w) (d : String) (n : Int)
    (events : List (LimiterCall T)) :
    withinWindow w (lastPruneTime d events)
      ((runLimiter (RateLimiter.init n w) events).requests d) := by
  induction events using List.reverseRecOn with
  | nil => simp [withinWindow, lastPruneTime, runLimiter, RateLimiter.init]
  | append_singleton es e ih =>
    rw [runLimiter_snoc, lastPruneTime_append]
    cases e with
    | gwt d' t =>
      simpa [applyCall, lastPruneTime] using ih
    | cmr d' t =>
      by_cases h : d' = d
      · subst h
        simp only [applyCall, lastPruneTime, if_pos rfl]
        rw [can_make_request_requests_self]
        have hwin := runLimiter_time_window (RateLimiter.init n w : RateLimiter T) es
        intro x hx
        by_cases hb : (can_make_request (runLimiter (RateLimiter.init n w) es) d' t).1 <;>
          simp only [hb, if_true, if_false, Bool.false_eq_true] at hx
        · rcases List.mem_append.mp hx with hx | hx
          · have := List.of_mem_filter hx
            rw [hwin] at this
            exact of_decide_eq_true this
          · rw [List.mem_singleton.mp hx]
            simpa using hw
        · have := List.of_mem_filter hx
          rw [hwin] at this
          exact of_decide_eq_true this
      · have hne : d ≠ d' := fun hh => h hh.symm
        simp only [applyCall, lastPruneTime, if_neg h]
        rw [can_make_request_requests_other _ _ _ _ hne]
        exact ih

theorem admitted_length_le (rl : RateLimiter T) (d : String) (t : T)
    (h : (can_make_request rl d t).1 = true) :
    (((can_make_request rl d t).2.requests d).length : Int) ≤ rl.max_requests := by
  have hlt : ((pruneRequests t rl.time_window (rl.requests d)).length : Int) <
      rl.max_requests := by
    have hb := can_make_request_fst rl d t
    rw [h] at hb
    exact of_decide_eq_true hb.symm
  rw [can_make_request_requests_self, h, if_pos rfl]
  simp only [List.length_append, List.length_singleton]
  push_cast
  omega

/-- C6: in every state reachable from a fresh limiter by `can_make_request`
and `get_wait_time` calls, every timestamp recorded for a domain is within
`time_window` of the clock reading at that domain's last prune (the last
`can_make_request` call on it), and immediately after a `can_make_request`
call that returns true the domain's recorded count is at most
`max_requests`. -/
theorem reachable_state_invariant (n : Int) (w : T) (events : List (LimiterCall T))
    (d : String) (t : T) (hw : 0 < w) :
    withinWindow w (lastPruneTime d events)
        ((runLimiter (RateLimiter.init n w) events).requests d) ∧
      ((can_make_request (runLimiter (RateLimiter.init n w) events) d t).1 = true →
        (((can_make_request (runLimiter (RateLimiter.init n w) events) d t).2.requests
            d).length : Int) ≤ n) := by
  constructor
  · exact runLimiter_withinWindow w hw d n events
  · intro h
    have h2 := admitted_length_le (runLimiter (RateLimiter.init n w) events) d t h
    rwa [runLimiter_max] at h2

/-- Witness for C6: the state after one admitted call on `example.com` at
time 0 with capacity 2 and window 60. -/
theorem reachable_state_invariant_witness :
    (0 : Int) < 60 ∧
      (withinWindow 60 (lastPruneTime "example.com" [LimiterCall.cmr "example.com" (0 : Int)])
          ((runLimiter (RateLimiter.init 2 60 : RateLimiter Int)
            [LimiterCall.cmr "example.com" 0]).requests "example.com") ∧
        ((can_make_request (runLimiter (RateLimiter.init 2 60 : RateLimiter Int)
              [LimiterCall.cmr "example.com" 0]) "example.com" 0).1 = true →
          (((can_make_request (runLimiter (RateLimiter.init 2 60 : RateLimiter Int)
                [LimiterCall.cmr "example.com" 0]) "example.com" 0).2.requests
              "example.com").length : Int) ≤ 2)) :=
  ⟨by decide,
    reachable_state_invariant 2 60 [LimiterCall.cmr "example.com" 0] "example.com" 0
      (by decide)⟩

/-! ## WebUtils helpers (web_utils.py) -/

/-- Characters the CPython `urlsplit` scheme parser accepts after the first
character. -/
def isSchemeChar (c : Char) : Bool :=
  c.isAlphanum || c = '+' || c = '-' || c = '.'

/-- Modelled from the CPython `urllib.parse.urlsplit` scheme step (an
external library function the source delegates to): when the text before the
first colon is a well-formed scheme (a leading ASCII letter, scheme
characters throughout), everything through that colon is dropped. -/
def dropScheme (cs : List Char) : List Char :=
  let pre := cs.takeWhile (fun c => c != ':')
  let post := cs.dropWhile (fun c => c != ':')
  match post with
  | [] => cs
  | _ :: rest =>
    match pre with
    | [] => cs
    | c0 :: _ => if c0.isAlpha && pre.all isSchemeChar then rest else cs

/-- The body of `WebUtils.extract_domain` (web_utils.py lines 45-52), which
returns `urlparse(url).netloc`: after an optional well-formed scheme part,
a netloc is present iff the remainder starts with two slashes, and extends
to the next slash, question mark or hash. -/
def extract_domain (url : String) : String :=
  match dropScheme url.data with
  | '/' :: '/' :: tail =>
    String.mk (tail.takeWhile (fun c => c != '/' && c != '?' && c != '#'))
  | _ => ""

/-- Python str.lower, modelled character-wise (ASCII lowering; URLs and
content-type headers are ASCII). -/
def pyLower (s : String) : String :=
  String.mk (s.data.map Char.toLower)

/-- Python substring containment (the `in` operator) on character lists. -/
def listHasInfix (pat : List Char) : List Char → Bool
  | [] => pat.isEmpty
  | c :: rest => pat.isPrefixOf (c :: rest) || listHasInfix pat rest

/-- Python substring containment on strings. -/
def hasSubstr (s pat : String) : Bool :=
  listHasInfix pat.data s.data

/-- The body of `WebUtils.is_pdf_url` (web_utils.py lines 60-62): the
lowercased URL ends in the four characters dot-p-d-f, or contains the
substring pdf anywhere. -/
def is_pdf_url (url : String) : Bool :=
  List.isSuffixOf ".pdf".data (pyLower url).data || hasSubstr (pyLower url) "pdf"

/-! ## Batch fetch driver (web_scraper.py lines 193-216) -/

/-- One step of the grouping loop: record `url` under `domain`, appending to
the existing group or creating a new group at the end on the first
appearance of the domain, exactly as inserting into a Python dict whose keys
keep insertion order (web_scraper.py lines 199-203). -/
def addToGroups (groups : List (String × List String)) (domain url : String) :
    List (String × List String) :=
  match groups with
  | [] => [(domain, [url])]
  | (k, v) :: rest =>
    if k = domain then (k, v ++ [url]) :: rest
    else (k, v) :: addToGroups rest domain url

/-- The grouping loop of `batch_fetch_urls` (web_scraper.py lines 198-203):
the dict from domain to its URLs, modelled as an insertion-ordered
association list. -/
def domainGroups (urls : List String) : List (String × List String) :=
  urls.foldl (fun gs url => addToGroups gs (extract_domain url) url) []

/-- Observable behaviour of one `batch_fetch_urls` run: the collected
results, the URLs passed to the fetch operation in call order, and the
number of sleep pauses performed. -/
structure BatchRun (α : Type) where
  results : List α
  fetchCalls : List String
  sleeps : Nat

/-- The inner loop of `batch_fetch_urls` (web_scraper.py lines 209-214) over
one domain group: fetch each URL, append its result, then sleep once,
unconditionally. -/
def runGroupUrls {α : Type} (fetch : String → α) : List String → BatchRun α
  | [] => ⟨[], [], 0⟩
  | u :: rest =>
    let r := runGroupUrls fetch rest
    ⟨fetch u :: r.results, u :: r.fetchCalls, r.sleeps + 1⟩

/-- The outer loop of `batch_fetch_urls` (web_scraper.py lines 206-214):
drive the domain groups in key order. -/
def runGroups {α : Type} (fetch : String → α) : List (String × List String) → BatchRun α
  | [] => ⟨[], [], 0⟩
  | g :: rest =>
    let r1 := runGroupUrls fetch g.2
    let r2 := runGroups fetch rest
    ⟨r1.results ++ r2.results, r1.fetchCalls ++ r2.fetchCalls, r1.sleeps + r2.sleeps⟩

/-- `WebScraper.batch_fetch_urls` (web_scraper.py lines 193-216), with the
per-URL work (`fetch_url`) abstracted as a function argument: group the URLs
by extracted domain, then process every group sequentially. -/
def batch_fetch_urls {α : Type} (fetch : String → α) (urls : List String) : BatchRun α :=
  runGroups fetch (domainGroups urls)

theorem runGroupUrls_results {α : Type} (fetch : String → α) (l : List String) :
    (runGroupUrls fetch l).results = l.map fetch := by
  induction l with
  | nil => rfl
  | cons u rest ih => simp [runGroupUrls, ih]

theorem runGroupUrls_fetchCalls {α : Type} (fetch : String → α) (l : List String) :
    (runGroupUrls fetch l).fetchCalls = l := by
  induction l with
  | nil => rfl
  | cons u rest ih => simp [runGroupUrls, ih]

theorem runGroupUrls_sleeps {α : Type} (fetch : String → α) (l : List String) :
    (runGroupUrls fetch l).sleeps = l.length := by
  induction l with
  | nil => rfl
  | cons u rest ih => simp [runGroupUrls, ih]

theorem runGroups_fetchCalls {α : Type} (fetch : String → α)
    (gs : List (String × List String)) :
    (runGroups fetch gs).fetchCalls = gs.flatMap Prod.snd := by
  induction gs with
  | nil => rfl
  | cons g rest ih => simp [runGroups, runGroupUrls_fetchCalls, ih]

theorem runGroups_results {α : Type} (fetch : String → α)
    (gs : List (String × List String)) :
    (runGroups fetch gs).results = (gs.flatMap Prod.snd).map fetch := by
  induction gs with
  | nil => rfl
  | cons g rest ih => simp [runGroups, runGroupUrls_results, ih]

theorem runGroups_sleeps {α : Type} (fetch : String → α)
    (gs : List (String × List String)) :
    (runGroups fetch gs).sleeps = (gs.flatMap Prod.snd).length := by
  induction gs with
  | nil => rfl
  | cons g rest ih => simp [runGroups, runGroupUrls_sleeps, ih]

theorem addToGroups_flatten (gs : List (String × List String)) (d u : String) :
    List.Perm ((addToGroups gs d u).flatMap Prod.snd) (gs.flatMap Prod.snd ++ [u]) := by
  induction gs with
  | nil => simp [addToGroups]
  | cons g rest ih =>
    obtain ⟨k, v⟩ := g
    by_cases h : k = d
    · simp only [addToGroups, if_pos h, List.flatMap_cons]
      rw [List.append_assoc, List.append_assoc]
      exact List.Perm.append_left v (List.perm_append_comm)
    · simp only [addToGroups, if_neg h, List.flatMap_cons]
      rw [List.append_assoc]
      exact List.Perm.append_left v ih

theorem domainGroups_flatten_perm (urls : List String) :
    List.Perm ((domainGroups urls).flatMap Prod.snd) urls := by
  induction urls using List.reverseRecOn with
  | nil => simp [domainGroups]
  | append_singleton us u ih =>
    rw [domainGroups, List.foldl_append, List.foldl_cons, List.foldl_nil]
    exact (addToGroups_flatten _ _ _).trans (ih.append_right [u])

/-! ## C3: one result per URL, one fetch call per URL -/

/-- C3: for every fetch operation (whatever its per-URL results, errors
included) and every URL list, `batch_fetch_urls` produces exactly one result
per input URL, and passes each input URL to the fetch operation exactly once
(the call trace is a permutation of the input, multiplicity included).
Instantiating `urls := []` gives an empty result sequence and an empty call
trace. -/
theorem batch_fetch_one_result_per_url {α : Type} (fetch : String → α)
    (urls : List String) :
    (batch_fetch_urls fetch urls).results.length = urls.length ∧
      List.Perm (batch_fetch_urls fetch urls).fetchCalls urls := by
  have hperm := domainGroups_flatten_perm urls
  constructor
  · rw [batch_fetch_urls, runGroups_results, List.length_map]
    exact hperm.length_eq
  · rw [batch_fetch_urls, runGroups_fetchCalls]
    exact hperm

/-! ## C9: one unconditional pause per URL -/

/-- C9: the fixed inter-request pause is performed unconditionally after
every fetched URL — after the last URL of the batch and after a denied fetch
alike, since the loop body never inspects the result before sleeping — so a
batch of `k` URLs performs exactly `k` pauses. -/
theorem batch_fetch_sleeps {α : Type} (fetch : String → α) (urls : List String) :
    (batch_fetch_urls fetch urls).sleeps = urls.length := by
  rw [batch_fetch_urls, runGroups_sleeps]
  exact (domainGroups_flatten_perm urls).length_eq

/-! ## C4: processing order is domain-grouped in first-appearance order -/

/-- Modelled from the spec: the distinct values of a list in order of first
appearance (Python dict key order). -/
def firstAppearanceKeys (ds : List String) : List String :=
  ds.foldl (fun acc d => if d ∈ acc then acc else acc ++ [d]) []

/-- Modelled from the spec: the batch processing order — the domains in
order of first appearance across the input, and for each domain its URLs in
their original relative order. -/
def specFetchOrder (urls : List String) : List String :=
  (firstAppearanceKeys (urls.map extract_domain)).flatMap
    (fun d => urls.filter (fun u => decide (extract_domain u = d)))

theorem firstAppearanceKeys_aux_mem (ds : List String) :
    ∀ (acc : List String) (x : String),
      x ∈ ds.foldl (fun a d => if d ∈ a then a else a ++ [d]) acc ↔ x ∈ acc ∨ x ∈ ds := by
  induction ds with
  | nil => simp
  | cons d ds ih =>
    intro acc x
    simp only [List.foldl_cons]
    by_cases h : d ∈ acc
    · rw [if_pos h, ih]
      constructor
      · rintro (hx | hx)
        · exact Or.inl hx
        · exact Or.inr (List.mem_cons_of_mem d hx)
      · rintro (hx | hx)
        · exact Or.inl hx
        · rcases List.mem_cons.mp hx with rfl | hx
          · exact Or.inl h
          · exact Or.inr hx
    · rw [if_neg h, ih]
      simp only [List.mem_append, List.mem_singleton, List.mem_cons]
      tauto

theorem firstAppearanceKeys_mem (ds : List String) (x : String) :
    x ∈ firstAppearanceKeys ds ↔ x ∈ ds := by
  rw [firstAppearanceKeys, firstAppearanceKeys_aux_mem]
  simp

theorem firstAppearanceKeys_snoc (ds : List String) (d : String) :
    firstAppearanceKeys (ds ++ [d]) =
      if d ∈ firstAppearanceKeys ds then firstAppearanceKeys ds
      else firstAppearanceKeys ds ++ [d] := by
  rw [firstAppearanceKeys, firstAppearanceKeys, List.foldl_append, List.foldl_cons,
    List.foldl_nil]

theorem addToGroups_keys_mem (gs : List (String × List String)) (d u : String)
    (h : d ∈ gs.map Prod.fst) :
    (addToGroups gs d u).map Prod.fst = gs.map Prod.fst := by
  induction gs with
  | nil => simp at h
  | cons g rest ih =>
    obtain ⟨k, v⟩ := g
    by_cases hk : k = d
    · simp [addToGroups, hk]
    · rcases List.mem_cons.mp h with h | h
      · exact absurd h.symm hk
      · simp [addToGroups, hk, ih h]

theorem addToGroups_keys_not_mem (gs : List (String × List String)) (d u : String)
    (h : d ∉ gs.map Prod.fst) :
    (addToGroups gs d u).map Prod.fst = gs.map Prod.fst ++ [d] := by
  induction gs with
  | nil => simp [addToGroups]
  | cons g rest ih =>
    obtain ⟨k, v⟩ := g
    have hk : k ≠ d := by
      intro hh
      exact h (by simp [hh])
    have hrest : d ∉ rest.map Prod.fst := by
      intro hh
      exact h (by simp [hh])
    simp [addToGroups, hk, ih hrest]

theorem addToGroups_mem (gs : List (String × List String)) (d u : String)
    (hnd : (gs.map Prod.fst).Nodup) :
    ∀ p ∈ addToGroups gs d u,
      (p.1 ≠ d ∧ p ∈ gs) ∨
        (p.1 = d ∧ ∃ v, p.2 = v ++ [u] ∧ (d, v) ∈ gs) ∨
        (p.1 = d ∧ p.2 = [u] ∧ d ∉ gs.map Prod.fst) := by
  induction gs with
  | nil =>
    intro p hp
    rcases List.mem_singleton.mp hp with rfl
    exact Or.inr (Or.inr ⟨rfl, rfl, by simp⟩)
  | cons g rest ih =>
    obtain ⟨k, v⟩ := g
    have hnd2 : (rest.map Prod.fst).Nodup := (List.nodup_cons.mp hnd).2
    have hknotin : k ∉ rest.map Prod.fst := (List.nodup_cons.mp hnd).1
    intro p hp
    by_cases hk : k = d
    · subst hk
      simp only [addToGroups, if_pos rfl] at hp
      rcases List.mem_cons.mp hp with rfl | hp
      · exact Or.inr (Or.inl ⟨rfl, v, rfl, List.mem_cons_self _ _⟩)
      · have hp1 : p.1 ≠ k := by
          intro hh
          exact hknotin (hh ▸ List.mem_map_of_mem Prod.fst hp)
        exact Or.inl ⟨hp1, List.mem_cons_of_mem _ hp⟩
    · simp only [addToGroups, if_neg hk] at hp
      rcases List.mem_cons.mp hp with rfl | hp
      · exact Or.inl ⟨hk, List.mem_cons_self _ _⟩
      · rcases ih hnd2 p hp with ⟨h1, h2⟩ | ⟨h1, v', h2, h3⟩ | ⟨h1, h2, h3⟩
        · exact Or.inl ⟨h1, List.mem_cons_of_mem _ h2⟩
        · exact Or.inr (Or.inl ⟨h1, v', h2, List.mem_cons_of_mem _ h3⟩)
        · refine Or.inr (Or.inr ⟨h1, h2, ?_⟩)
          intro hh
          simp only [List.map_cons, List.mem_cons] at hh
          rcases hh with hh2 | hh2
          · exact hk hh2.symm
          · exact h3 hh2

/-- The grouping dict built by `batch_fetch_urls`: its keys are the domains
in order of first appearance (without duplicates), and the group of a key
is the subsequence of input URLs with that domain. -/
theorem domainGroups_char (urls : List String) :
    ((domainGroups urls).map Prod.fst).Nodup ∧
      (domainGroups urls).map Prod.fst = firstAppearanceKeys (urls.map extract_domain) ∧
      ∀ p ∈ domainGroups urls,
        p.2 = urls.filter (fun u => decide (extract_domain u = p.1)) := by
  induction urls using List.reverseRecOn with
  | nil =>
    refine ⟨by simp [domainGroups], by simp [domainGroups, firstAppearanceKeys], ?_⟩
    intro p hp
    simp [domainGroups] at hp
  | append_singleton us u ih =>
    obtain ⟨hnd, hkeys, hvals⟩ := ih
    have hstep : domainGroups (us ++ [u]) =
        addToGroups (domainGroups us) (extract_domain u) u := by
      rw [domainGroups, List.foldl_append, List.foldl_cons, List.foldl_nil]
      rfl
    have hkeysnoc := firstAppearanceKeys_snoc (us.map extract_domain) (extract_domain u)
    have hmemiff : extract_domain u ∈ (domainGroups us).map Prod.fst ↔
        extract_domain u ∈ firstAppearanceKeys (us.map extract_domain) := by
      rw [hkeys]
    by_cases hmem : extract_domain u ∈ (domainGroups us).map Prod.fst
    · have hkeq := addToGroups_keys_mem (domainGroups us) (extract_domain u) u hmem
      refine ⟨?_, ?_, ?_⟩
      · rw [hstep, hkeq]
        exact hnd
      · rw [hstep, hkeq, hkeys, List.map_append, List.map_singleton, hkeysnoc,
          if_pos (hmemiff.mp hmem)]
      · intro p hp
        rw [hstep] at hp
        rcases addToGroups_mem (domainGroups us) (extract_domain u) u hnd p hp with
          ⟨h1, h2⟩ | ⟨h1, v', h2, h3⟩ | ⟨h1, h2, h3⟩
        · rw [List.filter_append, hvals p h2]
          have hfu : (fun x => decide (extract_domain x = p.1)) u = false := by
            simp only [decide_eq_false_iff_not]
            intro hh
            exact h1 hh.symm
          simp [hfu]
        · have hv' : v' = us.filter (fun x => decide (extract_domain x = extract_domain u)) :=
            hvals (extract_domain u, v') h3
          rw [h2, h1, hv']
          simp
        · exact absurd hmem h3
    · have hkeq := addToGroups_keys_not_mem (domainGroups us) (extract_domain u) u hmem
      refine ⟨?_, ?_, ?_⟩
      · rw [hstep, hkeq]
        exact List.Nodup.append hnd (List.nodup_singleton _)
          (by simpa using fun hh => hmem hh)
      · rw [hstep, hkeq, hkeys, List.map_append, List.map_singleton, hkeysnoc,
          if_neg (fun hh => hmem (hmemiff.mpr hh))]
      · intro p hp
        rw [hstep] at hp
        rcases addToGroups_mem (domainGroups us) (extract_domain u) u hnd p hp with
          ⟨h1, h2⟩ | ⟨h1, v', h2, h3⟩ | ⟨h1, h2, h3⟩
        · rw [List.filter_append, hvals p h2]
          have hfu : (fun x => decide (extract_domain x = p.1)) u = false := by
            simp only [decide_eq_false_iff_not]
            intro hh
            exact h1 hh.symm
          simp [hfu]
        · exact absurd (List.mem_map_of_mem Prod.fst h3) hmem
        · have hfil : us.filter (fun x => decide (extract_domain x = p.1)) = [] := by
            rw [List.filter_eq_nil_iff]
            intro x hx
            simp only [decide_eq_true_eq]
            intro hh
            apply hmem
            rw [hkeys, firstAppearanceKeys_mem]
            have hex : extract_domain u = extract_domain x := by
              rw [← h1, ← hh]
            rw [hex]
            exact List.mem_map_of_mem extract_domain hx
          rw [List.filter_append, hfil, h2, h1]
          simp

theorem flatMap_snd_of_filter (urls : List String) :
    ∀ (gs : List (String × List String)),
      (∀ p ∈ gs, p.2 = urls.filter (fun u => decide (extract_domain u = p.1))) →
      gs.flatMap Prod.snd =
        (gs.map Prod.fst).flatMap
          (fun d => urls.filter (fun u => decide (extract_domain u = d))) := by
  intro gs
  induction gs with
  | nil => simp
  | cons p rest ih =>
    intro h
    simp only [List.flatMap_cons, List.map_cons]
    rw [h p (List.mem_cons_self _ _), ih (fun q hq => h q (List.mem_cons_of_mem _ hq))]

/-- C4: `batch_fetch_urls` processes the URLs — and emits their results — in
exactly the domain-grouped order: domain groups in order of first appearance
of each domain across the input, and within a group the URLs in their
original relative order.  In particular two same-domain URLs stay adjacent
as a block, in their relative input order. -/
theorem batch_fetch_order {α : Type} (fetch : String → α) (urls : List String) :
    (batch_fetch_urls fetch urls).fetchCalls = specFetchOrder urls ∧
      (batch_fetch_urls fetch urls).results = (specFetchOrder urls).map fetch := by
  obtain ⟨hnd, hkeys, hvals⟩ := domainGroups_char urls
  have horder : (domainGroups urls).flatMap Prod.snd = specFetchOrder urls := by
    rw [flatMap_snd_of_filter urls (domainGroups urls) hvals, hkeys, specFetchOrder]
  constructor
  · rw [batch_fetch_urls, runGroups_fetchCalls, horder]
  · rw [batch_fetch_urls, runGroups_results, horder]

/-! ## C10: the PDF branch of the content dispatch in fetch_url -/

/-- Python str.split on a slash, modelled on the character list. -/
def splitOnSlash : List Char → List (List Char)
  | [] => [[]]
  | c :: rest =>
    let r := splitOnSlash rest
    if c = '/' then [] :: r
    else
      match r with
      | [] => [[c]]
      | seg :: segs => (c :: seg) :: segs

/-- Python str.split on a slash, last element: the placeholder title. -/
def lastSegment (url : String) : String :=
  String.mk ((splitOnSlash url.data).getLastD [])

/-- The fields of the PDF placeholder result that
`WebScraper._process_pdf_response` builds (web_scraper.py lines 122-147). -/
structure PdfPlaceholder where
  url : String
  domain : String
  title : String
  content : String
  word_count : Nat
  keywords : List String
deriving DecidableEq

/-- `WebScraper._process_pdf_response` (web_scraper.py lines 122-147):
reports basic metadata only, with no text extraction — a fixed placeholder
content string, zero word count and no keywords. -/
def process_pdf_response (url : String) : PdfPlaceholder :=
  ⟨url, extract_domain url, lastSegment url,
    "PDF content extraction not implemented yet", 0, []⟩

/-- Which branch the content dispatch of `WebScraper.fetch_url` selects. -/
inductive FetchDispatch where
  | pdf (r : PdfPlaceholder)
  | html
  | unsupported (content_type : String)
deriving DecidableEq

/-- The content-type dispatch of `WebScraper.fetch_url` (web_scraper.py
lines 63-71) on the lowercased content-type header and the URL: the PDF
branch when the content type mentions pdf or `is_pdf_url` holds of the URL;
otherwise the HTML branch for html or text content types; otherwise an
unsupported-content error. -/
def fetch_url_dispatch (url content_type_header : String) : FetchDispatch :=
  let content_type := pyLower content_type_header
  if hasSubstr content_type "pdf" || is_pdf_url url then
    FetchDispatch.pdf (process_pdf_response url)
  else if hasSubstr content_type "html" || hasSubstr content_type "text" then
    FetchDispatch.html
  else
    FetchDispatch.unsupported content_type

/-- C10: whenever the lowercased URL contains the substring pdf anywhere — a
dot-pdf extension is not required — `is_pdf_url` accepts it, so `fetch_url`
selects the PDF placeholder branch for every declared content type: the URL
check takes precedence over an HTML or text content-type declaration, and
the placeholder performs no text extraction (word count zero). -/
theorem pdf_url_wins_dispatch (url content_type_header : String)
    (h : hasSubstr (pyLower url) "pdf" = true) :
    fetch_url_dispatch url content_type_header =
        FetchDispatch.pdf (process_pdf_response url) ∧
      (process_pdf_response url).word_count = 0 := by
  refine ⟨?_, rfl⟩
  have hp : is_pdf_url url = true := by
    rw [is_pdf_url, h, Bool.or_true]
  rw [fetch_url_dispatch]
  simp [hp]

/-- Witness for C10: a URL that merely mentions pdf in a path segment (no
dot-pdf extension), served with an HTML content type, still lands in the PDF
placeholder branch. -/
theorem pdf_url_wins_dispatch_witness :
    hasSubstr (pyLower "http://example.com/pdfviewer/page") "pdf" = true ∧
      (fetch_url_dispatch "http://example.com/pdfviewer/page" "text/html" =
          FetchDispatch.pdf (process_pdf_response "http://example.com/pdfviewer/page") ∧
        (process_pdf_response "http://example.com/pdfviewer/page").word_count = 0) :=
  ⟨by decide, pdf_url_wins_dispatch "http://example.com/pdfviewer/page" "text/html"
    (by decide)⟩

end McpExample
